import Mathlib

/-!
Verification of the Astro code-generation backend (mitosis repository).

The definitions below are a shallow embedding of the source files
`src/unnamed/part_000` (the more complete revision of the Astro generator)
and `src/packages/core/src/generators/astro/generator.ts`.  Pure functions
of the source become Lean functions; JavaScript regular-expression
replacement is embedded as an explicit character-list scan with the same
left-to-right, non-overlapping match semantics; exceptions of external
collaborators are embedded as `Option`-valued results; in-place mutation of
the component (claim about the defensive clone) is embedded as an explicit
component store with numbered cells.
-/

/-! ## Character and string utilities (JS semantics) -/

/-- A regex word character, i.e. the class `\w` = `[A-Za-z0-9_]` of the
JavaScript patterns `\bstate\.(\w+)` and `\bprops\.(\w+)` in
`processBinding`. -/
def isWordChar (c : Char) : Bool :=
  c.isAlphanum || c == '_'

/-- Whitespace as trimmed by `String.prototype.trim` (ASCII part). -/
def isJsWs (c : Char) : Bool :=
  c == ' ' || c == '\t' || c == '\n' || c == '\r' || c == '\x0b' || c == '\x0c'

/-- Embedding of JavaScript `code.trim()`. -/
def jsTrim (s : String) : String :=
  ⟨((s.data.dropWhile isJsWs).reverse.dropWhile isJsWs).reverse⟩

/-- Embedding of JavaScript `s.includes(sub)` (substring containment). -/
def strIncludes (s sub : String) : Bool :=
  decide (sub.data <:+: s.data)

/-- First character of the list is a word character (used for the `(\w+)`
part of the patterns: at least one word character must follow the dot). -/
def headIsWord : List Char → Bool
  | [] => false
  | c :: _ => isWordChar c

/-- The JS regex `\b<pat>\.(\w+)` matches at the head of `l`: the previous
character was not a word character (`\b`), `l` starts with `pat` followed by
a dot, and at least one word character follows. -/
def refMatchAt (pat : List Char) (prevW : Bool) (l : List Char) : Bool :=
  !prevW && (pat ++ ['.']).isPrefixOf l && headIsWord (l.drop (pat.length + 1))

/-- One global-replace pass of `processed.replace(/\b<pat>\.(\w+)/g, repl)`
where `repl` is `'$1'` when `keep = false` and `'<pat>.$1'` when
`keep = true`.  The scan is left to right and non-overlapping, exactly like
`String.prototype.replace` with a global regex; `prevW` records whether the
previous character of the original string was a word character (for `\b`).
`fuel` is an upper bound on the number of scan steps; every step consumes at
least one character, so `l.length` is always sufficient. -/
def substAux (pat : List Char) (keep : Bool) : Nat → Bool → List Char → List Char
  | 0, _, l => l
  | _ + 1, _, [] => []
  | fuel + 1, prevW, c :: cs =>
    if refMatchAt pat prevW (c :: cs) then
      let tl := (c :: cs).drop (pat.length + 1)
      let w := tl.takeWhile isWordChar
      let rest := tl.dropWhile isWordChar
      (if keep then pat ++ ['.'] ++ w else w) ++ substAux pat keep fuel true rest
    else
      c :: substAux pat keep fuel (isWordChar c) cs

/-- Does the pattern `\b<pat>\.(\w+)` match anywhere in `l`? -/
def hasRef (pat : List Char) : Bool → List Char → Bool
  | _, [] => false
  | prevW, c :: cs =>
    if refMatchAt pat prevW (c :: cs) then true
    else hasRef pat (isWordChar c) cs

/-- String-level wrapper for one replacement pass. -/
def jsReplaceRef (pat : String) (keep : Bool) (s : String) : String :=
  ⟨substAux pat.data keep s.data.length false s.data⟩

/-! ## The Binding Processor (`processBinding`, src/unnamed/part_000) -/

/-- The context tag of `processBinding`: `'frontmatter'` (the spec's
`setup`) or `'template'` (the spec's `markup`). -/
inductive BindingCtx where
  | frontmatter
  | template
deriving DecidableEq

/-- The two sequential replacement passes of `processBinding`:
in `template` context `state.x ↦ x` then `props.x ↦ x`; in `frontmatter`
context `state.x ↦ x` then `props.x ↦ props.x` (the replacement string
`'props.$1'` reconstructs the match). -/
def substPasses (ctx : BindingCtx) (s : String) : String :=
  match ctx with
  | .template => jsReplaceRef "props" false (jsReplaceRef "state" false s)
  | .frontmatter => jsReplaceRef "props" true (jsReplaceRef "state" false s)

/-- Embedding of `processBinding` parameterised by the expression-transform
collaborator (`babelTransformExpression`), whose possible exception is
embedded as `none`.  Mirrors the source: blank code returns `''` before the
`try` block; inside the `try` the two substitution passes run and then the
transform; the `catch` returns the original `code`. -/
def processBindingWith (tf : String → Option String) (code : String)
    (ctx : BindingCtx) : String :=
  if jsTrim code = "" then ""
  else
    match tf (substPasses ctx code) with
    | some r => r
    | none => code

/-- Modelled from the spec: the expression-transform primitive
(`babelTransformExpression`, a collaborator outside `src/`) applies the
style-object key hyphenation to object-literal expressions and is the
identity on every other expression.  All expressions these claims evaluate
it on are plain references without object literals, so it is modelled as
the total identity; its throwing behaviour is captured by the
`Option`-valued parameter of `processBindingWith`. -/
def exprTransform (s : String) : Option String :=
  some s

/-- Embedding of `processBinding` of `src/unnamed/part_000` (the more
complete revision). -/
def processBinding (code : String) (ctx : BindingCtx) : String :=
  processBindingWith exprTransform code ctx

/-- Residual-pattern test: the once-rewritten text still contains a
container-reference pattern that a further pass would rewrite.  In
`template` context both containers are rewritten; in `frontmatter` context
the props pass is the identity, so only the state pattern matters. -/
def hasResidualRef (ctx : BindingCtx) (s : String) : Bool :=
  match ctx with
  | .template => hasRef "state".data false s.data || hasRef "props".data false s.data
  | .frontmatter => hasRef "state".data false s.data

/-! ## Data model (`MitosisComponent`, `MitosisNode`, `Binding`) -/

/-- A binding of the intermediate representation: expression code, an
optional binding type (`some "spread"` for spread bindings), the declared
event-handler parameter names (`none` means the source's default
`['event']`), and the async flag. -/
structure Binding where
  code : String
  type : Option String := none
  arguments : Option (List String) := none
  async : Bool := false
deriving DecidableEq

/-- A node of the component tree.  `properties` and `bindings` are
association lists in JavaScript object insertion order (the source iterates
them with `for ... in` / `Object.entries`).  `metaElse` is the
`meta.else` branch of a `Show` node.  `scopeFor` carries the iteration
variable names of a `For` node (the source obtains them through the
`getForArguments` helper, which is outside `src/`; modelled from the spec:
"extract the iteration item name and optional index name"). -/
inductive MitosisNode where
  | mk (name : String) (properties : List (String × String))
      (bindings : List (String × Binding)) (children : List MitosisNode)
      (metaElse : Option MitosisNode) (scopeFor : List String)

def MitosisNode.name : MitosisNode → String
  | .mk v _ _ _ _ _ => v

def MitosisNode.properties : MitosisNode → List (String × String)
  | .mk _ v _ _ _ _ => v

def MitosisNode.bindings : MitosisNode → List (String × Binding)
  | .mk _ _ v _ _ _ => v

def MitosisNode.children : MitosisNode → List MitosisNode
  | .mk _ _ _ v _ _ => v

def MitosisNode.metaElse : MitosisNode → Option MitosisNode
  | .mk _ _ _ _ v _ => v

def MitosisNode.scopeFor : MitosisNode → List String
  | .mk _ _ _ _ _ v => v

/-- The lifecycle hooks of a component: `onInit` is zero-or-one code block,
`onMount` an ordered list of hook code blocks, `onUpdate` an optional list
of hook code blocks (`some []` models a declared-but-empty array, which is
truthy in the source's `if (json.hooks.onUpdate)` check). -/
structure Hooks where
  onInit : Option String := none
  onMount : List String := []
  onUpdate : Option (List String) := none

/-- The compilation unit. -/
structure MitosisComponent where
  name : String := ""
  state : List (String × String) := []
  props : List String := []
  hooks : Hooks := {}
  children : List MitosisNode := []

/-- Replace the children of a node, keeping every other field. -/
def MitosisNode.withChildren : MitosisNode → List MitosisNode → MitosisNode
  | .mk name props binds _ metaE scope, cs => .mk name props binds cs metaE scope

/-! ## Constants of the generator -/

/-- The `INTERACTIVE_EVENTS` set of `src/unnamed/part_000` (events that
require client-side hydration), in source order. -/
def INTERACTIVE_EVENTS : List String :=
  ["onClick", "onChange", "onInput", "onSubmit", "onFocus", "onBlur",
   "onMouseOver", "onMouseOut", "onMouseEnter", "onMouseLeave",
   "onKeyDown", "onKeyUp", "onKeyPress", "onScroll", "onResize",
   "onLoad", "onError", "onAbort", "onCanPlay", "onCanPlayThrough",
   "onDurationChange", "onEmptied", "onEnded", "onLoadedData",
   "onLoadedMetadata", "onLoadStart", "onPause", "onPlay",
   "onPlaying", "onProgress", "onRateChange", "onSeeked",
   "onSeeking", "onStalled", "onSuspend", "onTimeUpdate",
   "onVolumeChange", "onWaiting", "onWheel"]

/-- Modelled from the spec: the `SELF_CLOSING_HTML_TAGS` constant
(`@/constants/html_tags`, outside `src/`) is the set of HTML void-element
names ("the self-closing set"). -/
def selfClosingTags : List String :=
  ["area", "base", "br", "col", "embed", "hr", "img", "input", "link",
   "meta", "param", "source", "track", "wbr"]

/-- Modelled from the spec: the `checkIsEvent` helper (outside `src/`)
recognises event-style binding names: `on` followed by a character that is
its own upper-case image (as in `key[2].toUpperCase() === key[2]`). -/
def checkIsEvent (k : String) : Bool :=
  match k.data with
  | 'o' :: 'n' :: c :: _ => c.toUpper == c
  | _ => false

/-- Modelled from the spec: the `filterEmptyTextNodes` helper (outside
`src/`) drops text nodes whose literal text is blank ("skipping empty text
nodes"); every other node is kept. -/
def filterEmptyTextNodes (n : MitosisNode) : Bool :=
  match n.properties.lookup "_text" with
  | some t => !(jsTrim t == "")
  | none => true

/-- Modelled from the spec: the lodash `kebabCase` collaborator, hyphenating
camel-style names (`fontSize ↦ font-size`).  Only its determinism matters
to the claims below. -/
def kebabAux : List Char → List Char
  | [] => []
  | c :: cs => if c.isUpper then '-' :: c.toLower :: kebabAux cs else c :: kebabAux cs

def kebabCase (s : String) : String :=
  match s.data with
  | [] => ""
  | c :: cs => ⟨c.toLower :: kebabAux cs⟩

/-- Modelled from the spec: the lodash `camelCase` collaborator ("converted
to a conventional identifier casing").  Only its determinism matters here. -/
def camelAux : List Char → List Char
  | [] => []
  | '-' :: c :: cs => c.toUpper :: camelAux cs
  | c :: cs => c :: camelAux cs

def camelCase (s : String) : String :=
  match s.data with
  | [] => ""
  | c :: cs => ⟨c.toLower :: camelAux cs⟩

/-- Modelled from the spec: the `hash-sum` collaborator, "a content hash of
its raw code".  The exact digest is irrelevant to the claims; modelled as a
concrete deterministic accumulator hash. -/
def hashSum (s : String) : String :=
  toString (s.data.foldl (fun a c => (a * 33 + c.toNat) % 100000007) 5381)

/-! ## Refs (`getRefs` helper) -/

/-- Insert a ref name if not already collected (JS `Set` insertion order). -/
def insertRef (acc : List String) (c : String) : List String :=
  if acc.contains c then acc else acc ++ [c]

mutual

/-- Modelled from the spec: the `getRefs` helper (outside `src/`) collects
"which ref names it uses" — the codes of `ref` bindings anywhere in the
component tree, deduplicated in first-visit order. -/
def refsNode (acc : List String) : MitosisNode → List String
  | .mk _ _ binds children _ _ =>
    let acc2 :=
      match binds.lookup "ref" with
      | some b => insertRef acc b.code
      | none => acc
    refsNodes acc2 children

def refsNodes (acc : List String) : List MitosisNode → List String
  | [] => acc
  | c :: cs => refsNodes (refsNode acc c) cs

end

def getRefs (json : MitosisComponent) : List String :=
  refsNodes [] json.children

/-! ## The Hydration Analyzer (`analyzeHydrationNeeds`) -/

/-- The first binding key of a node that is in the interactive allow-list
(the `for ... in` loop of `checkNodeForInteractivity` returns at the first
hit). -/
def firstInteractive (binds : List (String × Binding)) : Option String :=
  ((binds.find? fun kb => INTERACTIVE_EVENTS.contains kb.1).map Prod.fst)

mutual

/-- The tree walk `checkNodeForInteractivity` of `analyzeHydrationNeeds`:
at the first interactive binding of a node the walk records a reason and
returns without visiting that node's children; otherwise it recurses into
the children.  Returns (flag, recorded reasons in traversal order); the
source accumulates both through shared mutable variables, which is
observationally the same. -/
def walkNode : MitosisNode → Bool × List String
  | .mk name _ binds children _ _ =>
    match firstInteractive binds with
    | some k => (true, ["Found interactive event: " ++ k ++ " on " ++ name])
    | none => walkNodes children

def walkNodes : List MitosisNode → Bool × List String
  | [] => (false, [])
  | n :: ns =>
    let a := walkNode n
    let b := walkNodes ns
    (a.1 || b.1, a.2 ++ b.2)

end

mutual

/-- Claim-side predicate, independent of the analyzer's walk: the node (or
its subtree) carries a binding whose name is in the interactive
allow-list. -/
def anyNode : MitosisNode → Bool
  | .mk _ _ binds children _ _ =>
    (binds.any fun kb => INTERACTIVE_EVENTS.contains kb.1) || anyNodes children

def anyNodes : List MitosisNode → Bool
  | [] => false
  | n :: ns => anyNode n || anyNodes ns

end

structure HydrationAnalysis where
  needsHydration : Bool
  reason : List String
  suggestedDirective : String

def refReason (refs : List String) : String :=
  "Component uses " ++ toString refs.length ++ " ref(s): " ++ String.intercalate ", " refs

def onMountReason (k : Nat) : String :=
  "Component has " ++ toString k ++ " onMount hook(s)"

def onUpdateReason (k : Nat) : String :=
  "Component has " ++ toString k ++ " onUpdate hook(s)"

/-- Embedding of `analyzeHydrationNeeds` (src/unnamed/part_000): refs, then
mount hooks, then update hooks, then the tree walk, each check appending a
reason and setting the flag; the directive defaults to `client:load`, is
downgraded to `client:idle` when there are interactive events and no refs,
and is forced back to `client:load` when any recorded reason mentions
`onMount`. -/
def analyzeHydrationNeeds (json : MitosisComponent) : HydrationAnalysis :=
  let refs := getRefs json
  let needs1 := decide (0 < refs.length)
  let reasons1 : List String := if 0 < refs.length then [refReason refs] else []
  let needs2 := needs1 || decide (0 < json.hooks.onMount.length)
  let reasons2 := reasons1 ++
    (if 0 < json.hooks.onMount.length then [onMountReason json.hooks.onMount.length] else [])
  let needs3 := needs2 || json.hooks.onUpdate.isSome
  let reasons3 := reasons2 ++
    (match json.hooks.onUpdate with
     | some us => [onUpdateReason us.length]
     | none => [])
  let walk := walkNodes json.children
  let hasIE := walk.1
  let reasons4 := reasons3 ++ walk.2
  let needs4 := needs3 || hasIE
  let d1 := if hasIE && decide (refs.length = 0) then "client:idle" else "client:load"
  let d2 := if reasons4.any (fun r => strIncludes r "onMount") then "client:load" else d1
  { needsHydration := needs4, reason := reasons4, suggestedDirective := d2 }

/-! ## The Class/Style Collector (`collectClassString`) -/

/-- JS `node.properties.<k>` with absence modelled as `""` (falsy). -/
def propGet (n : MitosisNode) (k : String) : String :=
  (n.properties.lookup k).getD ""

/-- JS `node.bindings.<k>?.code` with absence modelled as `""` (falsy). -/
def bindCode (n : MitosisNode) (k : String) : String :=
  ((n.bindings.lookup k).map Binding.code).getD ""

/-- The scoped class name for a CSS-in-JS binding:
`` `${kebabCase(node.name || 'element')}-${hash(node.bindings.css.code)}` ``. -/
def scopedClassName (n : MitosisNode) : String :=
  kebabCase (if n.name = "" then "element" else n.name) ++ "-" ++ hashSum (bindCode n "css")

/-- The `classes` array collected by `collectClassString`
(src/unnamed/part_000): trimmed literal `class` and `className` properties
as quoted literals, processed `class` and `className` bindings wrapped in
parentheses, then the quoted scoped class name for a CSS-in-JS binding.
(The source also records the scoped class in the shared `cssInJs`
accumulator; that side effect feeds only the style block of the assembler
and is not needed by the attribute text, so the string-valued embedding
omits it.) -/
def collectClassEntries (n : MitosisNode) : List String :=
  (if jsTrim (propGet n "class") ≠ "" then ["\"" ++ jsTrim (propGet n "class") ++ "\""] else [])
  ++ (if jsTrim (propGet n "className") ≠ "" then
        ["\"" ++ jsTrim (propGet n "className") ++ "\""] else [])
  ++ (if jsTrim (bindCode n "class") ≠ "" then
        ["(" ++ processBinding (bindCode n "class") .template ++ ")"] else [])
  ++ (if jsTrim (bindCode n "className") ≠ "" then
        ["(" ++ processBinding (bindCode n "className") .template ++ ")"] else [])
  ++ (if jsTrim (bindCode n "css") ≠ "" then ["\"" ++ scopedClassName n ++ "\""] else [])

/-- First character is a double quote (JS `classes[0].startsWith('"')`). -/
def headIsQuote (s : String) : Bool :=
  match s.data with
  | c :: _ => c == '"'
  | [] => false

/-- Last character is a double quote (JS `classes[0].endsWith('"')`). -/
def lastIsQuote (s : String) : Bool :=
  match s.data.getLast? with
  | some c => c == '"'
  | none => false

/-- The filtered-join expression form:
`` class={[e₁, e₂, …].filter(Boolean).join(' ')} ``. -/
def classExprOf (entries : List String) : String :=
  "class=\x7b[" ++ String.intercalate ", " entries ++ "].filter(Boolean).join(\x27 \x27)\x7d"

/-- Embedding of `collectClassString` (src/unnamed/part_000): empty string
when nothing contributes; the direct `class="…"` form for a single plain
string-literal entry; otherwise the filtered-join expression form. -/
def collectClassString (n : MitosisNode) : String :=
  if collectClassEntries n = [] then ""
  else if (collectClassEntries n).length = 1 ∧
      headIsQuote ((collectClassEntries n).headD "") = true ∧
      lastIsQuote ((collectClassEntries n).headD "") = true then
    "class=" ++ (collectClassEntries n).headD ""
  else classExprOf (collectClassEntries n)

/-! ## The Node Renderer (`blockToAstro`) -/

/-- The caller-facing options read by the renderer: the activation
directive (`none` models an absent option, `some "none"` the caller
disabling directives) and the typed-output flag (never read by the
renderer, which is what claim C7 quantifies over). -/
structure AstroOpts where
  typescript : Bool := true
  clientDirective : Option String := some "client:idle"
deriving DecidableEq

/-- `options.clientDirective || CLIENT_DIRECTIVES.idle`: the configured
directive, falling back to `client:idle` when absent or empty (falsy). -/
def directiveOf (o : AstroOpts) : String :=
  match o.clientDirective with
  | some d => if d = "" then "client:idle" else d
  | none => "client:idle"

/-- The attribute text for the static-properties loop of `blockToAstro`:
every literal property except `class`, `className` and `_text` as
` key="value"`, in insertion order. -/
def propsAttrs (props : List (String × String)) : String :=
  props.foldl
    (fun acc kv =>
      if kv.1 = "class" ∨ kv.1 = "className" ∨ kv.1 = "_text" then acc
      else acc ++ " " ++ kv.1 ++ "=\"" ++ kv.2 ++ "\"")
    ""

/-- One step of the dynamic-bindings loop of `blockToAstro`
(src/unnamed/part_000), threading the accumulated attribute text and the
`needsClientDirective` flag: blank-code and class/className/css/_text
entries are skipped; spread, ref, event (with the input `onChange`
rename and the interactive-event flag), `innerHTML`, `style` and generic
bindings each append their attribute form. -/
def bindingsFoldAux (nodeName : String) (acc : String) (flag : Bool) :
    List (String × Binding) → String × Bool
  | [] => (acc, flag)
  | (k, b) :: rest =>
    if jsTrim b.code = "" then bindingsFoldAux nodeName acc flag rest
    else if k = "class" ∨ k = "className" ∨ k = "css" ∨ k = "_text" then
      bindingsFoldAux nodeName acc flag rest
    else if b.type = some "spread" then
      bindingsFoldAux nodeName
        (acc ++ " \x7b...(" ++ processBinding b.code .template ++ ")\x7d") flag rest
    else if k = "ref" then
      bindingsFoldAux nodeName (acc ++ " bind:this=\x7b" ++ camelCase b.code ++ "\x7d") true rest
    else if checkIsEvent k = true then
      let eventName := if k = "onChange" ∧ nodeName = "input" then "onInput" else k
      let handler := " " ++ eventName ++ "=\x7b" ++ (if b.async then "async " else "")
        ++ "(" ++ String.intercalate "," (b.arguments.getD ["event"]) ++ ") => "
        ++ processBinding b.code .template ++ "\x7d"
      bindingsFoldAux nodeName (acc ++ handler) (flag || INTERACTIVE_EVENTS.contains k) rest
    else if k = "innerHTML" then
      bindingsFoldAux nodeName
        (acc ++ " set:html=\x7b" ++ processBinding b.code .template ++ "\x7d") flag rest
    else if k = "style" then
      bindingsFoldAux nodeName
        (acc ++ " style=\x7b" ++ processBinding b.code .template ++ "\x7d") flag rest
    else
      bindingsFoldAux nodeName
        (acc ++ " " ++ k ++ "=\x7b" ++ processBinding b.code .template ++ "\x7d") flag rest

def bindingsFold (nodeName : String) (binds : List (String × Binding)) : String × Bool :=
  bindingsFoldAux nodeName "" false binds

mutual

/-- Embedding of `blockToAstro` (src/unnamed/part_000): dispatch on node
shape in source order — literal text, dynamic text, `Fragment`, `For`
(`checkIsForNode`), `Show`, then a plain element with class attribute,
literal properties, dynamic bindings, the activation directive, the
self-closing cut, and innerHTML-before-children content. -/
def blockToAstro (opts : AstroOpts) : MitosisNode → String
  | .mk name props binds children metaE scope =>
    let tprop := (props.lookup "_text").getD ""
    if tprop ≠ "" then tprop
    else
      let tbind := ((binds.lookup "_text").map Binding.code).getD ""
      if tbind ≠ "" then "\x7b" ++ processBinding tbind .template ++ "\x7d"
      else if name = "Fragment" then
        String.intercalate "\n" (renderChildren opts children)
      else if name = "For" then
        let itemName := scope.headD "undefined"
        let ix := (scope.drop 1).headD ""
        let idxPart := if ix ≠ "" then ", " ++ ix else ""
        let eachCode := processBinding (((binds.lookup "each").map Binding.code).getD "") .template
        "\x7b" ++ eachCode ++ ".map((" ++ itemName ++ idxPart ++ ") => (\n      "
          ++ String.intercalate "\n" (renderChildren opts children) ++ "\n    ))\x7d"
      else if name = "Show" then
        let whenCode := processBinding (((binds.lookup "when").map Binding.code).getD "") .template
        "\x7b" ++ whenCode ++ " ? (\n      "
          ++ String.intercalate "\n" (renderChildren opts children)
          ++ "\n    ) : (" ++ renderElse opts metaE ++ ")\x7d"
      else
        let s0 := "<" ++ name
        let classAttr := collectClassString (.mk name props binds children metaE scope)
        let s1 := if classAttr = "" then s0 else s0 ++ " " ++ classAttr
        let s2 := s1 ++ propsAttrs props
        let fold := bindingsFold name binds
        let s3 := s2 ++ fold.1
        let s4 :=
          if fold.2 = true ∧ opts.clientDirective ≠ some "none" then
            s3 ++ " " ++ directiveOf opts
          else s3
        if selfClosingTags.contains name then s4 ++ " />"
        else
          let s5 := s4 ++ ">"
          let inner := ((binds.lookup "innerHTML").map Binding.code).getD ""
          let s6 :=
            if inner ≠ "" then s5 ++ "\x7b" ++ processBinding inner .template ++ "\x7d"
            else if children.isEmpty then s5
            else s5 ++ String.intercalate "\n" (renderChildren opts children)
          s6 ++ "</" ++ name ++ ">"

/-- `children.filter(filterEmptyTextNodes).map(child => blockToAstro(child,
options))`, fused into one pass. -/
def renderChildren (opts : AstroOpts) : List MitosisNode → List String
  | [] => []
  | c :: cs =>
    (if filterEmptyTextNodes c then [blockToAstro opts c] else []) ++ renderChildren opts cs

/-- The else branch of a `Show` node:
`node.meta?.else ? blockToAstro(node.meta.else, options) : 'null'`. -/
def renderElse (opts : AstroOpts) : Option MitosisNode → String
  | some e => blockToAstro opts e
  | none => "null"

end

/-! ## Reference-semantics model of the assembler's mutation discipline
(`componentToAstro`, src/unnamed/part_000)

`componentToAstro` starts with `let json = fastClone(component)` and every
in-place mutating call of the pipeline — `runPreJsonPlugins`,
`collectCss`, `runPostJsonPlugins`, `stripMetaProperties` — receives the
`json` binding, never the caller's `component` (which is only read, by
`initializeOptions`).  To state that the caller's object is left unchanged
we make the object identities explicit: components live in a store of
numbered cells, `fastClone` allocates a fresh cell holding a copy of the
caller's, and each mutating stage (modelled as an arbitrary
`MitosisComponent → MitosisComponent` transformer, covering whatever the
external collaborators do) is applied in place at the clone's cell. -/

structure ComponentStore where
  cells : List MitosisComponent

def storeGet (h : ComponentStore) (i : Nat) : Option MitosisComponent :=
  h.cells[i]?

/-- `fastClone`: allocate a fresh cell holding a deep, independent copy of
cell `i` (the Parser/cloner collaborator contract of the spec).  Returns
the new store and the clone's cell index. -/
def fastCloneAlloc (h : ComponentStore) (i : Nat) : ComponentStore × Nat :=
  match storeGet h i with
  | some c => (⟨h.cells ++ [c]⟩, h.cells.length)
  | none => (h, h.cells.length)

/-- In-place mutation of cell `i` by a transformer `f`. -/
def mutateAt (h : ComponentStore) (i : Nat) (f : MitosisComponent → MitosisComponent) :
    ComponentStore :=
  match storeGet h i with
  | some c => ⟨h.cells.set i (f c)⟩
  | none => h

/-- The mutating spine of one `componentToAstro` call: clone the caller's
component, then apply every in-place stage of the pipeline (pre-JSON
plugin hooks, CSS collection, post-JSON plugin hooks, metadata stripping —
passed as the list `stages`) at the clone's cell, as the source applies
them to its `json` binding.  Returns the final store and the clone's
index. -/
def componentToAstroPipeline (h : ComponentStore) (caller : Nat)
    (stages : List (MitosisComponent → MitosisComponent)) : ComponentStore × Nat :=
  let alloc := fastCloneAlloc h caller
  (stages.foldl (fun hh f => mutateAt hh alloc.2 f) alloc.1, alloc.2)

/-! ## Reference decomposition of expression strings (for claim C5)

To state that one replacement pass rewrites every bare container reference
of an arbitrary expression string, the string is presented together with
its decomposition into literal segments and bare references.  The
well-formedness predicate `wfSegs` states — in terms of the same match
predicate `refMatchAt` the scan uses — that the decomposition marks
exactly the scan's matches: each marked reference sits at a word boundary,
its captured word is maximal (the following text does not start with a
word character), and no match starts inside a literal segment, where the
check gets the following text as lookahead so that matches straddling a
segment boundary are covered too. -/

/-- A segment of an expression string, as seen by one replacement pass:
inert literal text, or an active bare reference `<pat>.<w>`. -/
inductive Seg where
  | lit (s : String)
  | ref (w : String)
deriving DecidableEq

def flattenSegsData (pat : List Char) : List Seg → List Char
  | [] => []
  | .lit s :: rest => s.data ++ flattenSegsData pat rest
  | .ref w :: rest => pat ++ '.' :: (w.data ++ flattenSegsData pat rest)

/-- The word-boundary state after scanning `u` starting in state `b`: the
wordness of the last character, or `b` when `u` is empty. -/
def exitState (b : Bool) (u : List Char) : Bool :=
  u.foldl (fun _ c => isWordChar c) b

/-- Does a match of `\b<pat>\.(\w+)` start inside the region `u`, with the
scan entering in boundary state `b` and `tail` as lookahead text? -/
def hasRefIn (pat : List Char) : Bool → List Char → List Char → Bool
  | _, [], _ => false
  | b, c :: cs, tail =>
    if refMatchAt pat b (c :: (cs ++ tail)) then true
    else hasRefIn pat (isWordChar c) cs tail

/-- The decomposition marks exactly the matches of one replacement pass
(see the section comment above). -/
def wfSegs (pat : List Char) : Bool → List Seg → Bool
  | _, [] => true
  | b, .lit s :: rest =>
    !(hasRefIn pat b s.data (flattenSegsData pat rest))
      && wfSegs pat (exitState b s.data) rest
  | b, .ref w :: rest =>
    !b && !w.data.isEmpty && w.data.all isWordChar
      && !(headIsWord (flattenSegsData pat rest)) && wfSegs pat true rest

/-- One pass with replacement `'$1'` rewrites each marked reference to its
bare word and keeps literal segments. -/
def rewriteSeg : Seg → Seg
  | .lit s => .lit s
  | .ref w => .lit w

/-- Expression tokens: literal text, a bare `state.<w>` reference, or a
bare `props.<w>` reference. -/
inductive ExprTok where
  | lit (s : String)
  | stateRef (w : String)
  | propsRef (w : String)
deriving DecidableEq

def flattenE : List ExprTok → String
  | [] => ""
  | .lit s :: r => s ++ flattenE r
  | .stateRef w :: r => "state." ++ w ++ flattenE r
  | .propsRef w :: r => "props." ++ w ++ flattenE r

/-- The view of the token list seen by the `state` pass: state references
are active, props references are inert text. -/
def toStateSegs : List ExprTok → List Seg
  | [] => []
  | .lit s :: r => .lit s :: toStateSegs r
  | .stateRef w :: r => .ref w :: toStateSegs r
  | .propsRef w :: r => .lit ("props." ++ w) :: toStateSegs r

/-- The view of the token list seen by the `props` pass: props references
are active, state references are inert text. -/
def toPropsSegs : List ExprTok → List Seg
  | [] => []
  | .lit s :: r => .lit s :: toPropsSegs r
  | .stateRef w :: r => .lit ("state." ++ w) :: toPropsSegs r
  | .propsRef w :: r => .ref w :: toPropsSegs r

/-- The token rewriting performed by the state pass: `state.<w> ↦ <w>`,
props references untouched. -/
def stateRewrittenToks : List ExprTok → List ExprTok
  | [] => []
  | .lit s :: r => .lit s :: stateRewrittenToks r
  | .stateRef w :: r => .lit w :: stateRewrittenToks r
  | .propsRef w :: r => .propsRef w :: stateRewrittenToks r

/-- The token rewriting performed by the two template passes together:
`state.<w> ↦ <w>` and `props.<w> ↦ <w>`. -/
def templateRewrittenToks : List ExprTok → List ExprTok
  | [] => []
  | .lit s :: r => .lit s :: templateRewrittenToks r
  | .stateRef w :: r => .lit w :: templateRewrittenToks r
  | .propsRef w :: r => .lit w :: templateRewrittenToks r

/-! ## Helper lemmas about the replacement scan -/

theorem substAux_nil (pat : List Char) (keep : Bool) (fuel : Nat) (b : Bool) :
    substAux pat keep fuel b [] = [] := by
  cases fuel <;> rfl

theorem hasRef_false_cons (pat : List Char) (b : Bool) (c : Char) (cs : List Char)
    (h : hasRef pat b (c :: cs) = false) :
    refMatchAt pat b (c :: cs) = false ∧ hasRef pat (isWordChar c) cs = false := by
  by_cases hm : refMatchAt pat b (c :: cs) = true
  · simp [hasRef, hm] at h
  · rw [Bool.not_eq_true] at hm
    rw [hasRef, hm] at h
    simp at h
    exact ⟨hm, h⟩

theorem substAux_id_of_hasRef_false (pat : List Char) (keep : Bool) :
    ∀ (fuel : Nat) (b : Bool) (l : List Char), l.length ≤ fuel →
      hasRef pat b l = false → substAux pat keep fuel b l = l := by
  intro fuel
  induction fuel with
  | zero => intro b l _ _; rfl
  | succ f ih =>
    intro b l hlen h
    cases l with
    | nil => rfl
    | cons c cs =>
      obtain ⟨hm, hrec⟩ := hasRef_false_cons pat b c cs h
      rw [substAux, hm]
      simp only [if_false, Bool.false_eq_true]
      rw [ih (isWordChar c) cs (by simp only [List.length_cons] at hlen; omega) hrec]

theorem refMatchAt_parts (pat : List Char) (b : Bool) (l : List Char)
    (h : refMatchAt pat b l = true) :
    b = false ∧ (pat ++ ['.']) <+: l ∧ headIsWord (l.drop (pat.length + 1)) = true := by
  unfold refMatchAt at h
  simp only [Bool.and_eq_true, Bool.not_eq_true'] at h
  exact ⟨h.1.1, List.isPrefixOf_iff_prefix.mp h.1.2, h.2⟩

theorem substAux_keep_id (pat : List Char) :
    ∀ (fuel : Nat) (b : Bool) (l : List Char), substAux pat true fuel b l = l := by
  intro fuel
  induction fuel with
  | zero => intro b l; rfl
  | succ f ih =>
    intro b l
    cases l with
    | nil => rfl
    | cons c cs =>
      by_cases hm : refMatchAt pat b (c :: cs) = true
      · obtain ⟨-, hpfx, -⟩ := refMatchAt_parts pat b (c :: cs) hm
        obtain ⟨t, ht⟩ := hpfx
        have hlen : (pat ++ ['.']).length = pat.length + 1 := by simp
        have hdrop : (c :: cs).drop (pat.length + 1) = t := by
          rw [← ht, List.drop_left' hlen]
        rw [substAux, hm]
        simp only [if_true]
        rw [hdrop, ih]
        rw [List.append_assoc, List.takeWhile_append_dropWhile]
        exact ht
      · rw [Bool.not_eq_true] at hm
        rw [substAux, hm]
        simp only [if_false, Bool.false_eq_true]
        rw [ih]

theorem hasRef_false_of_no_dot (pat : List Char) :
    ∀ (l : List Char) (b : Bool), ('.' ∉ l) → hasRef pat b l = false := by
  intro l
  induction l with
  | nil => intro b _; rfl
  | cons c cs ih =>
    intro b hnd
    have hm : refMatchAt pat b (c :: cs) = false := by
      by_contra hcon
      rw [Bool.not_eq_false] at hcon
      obtain ⟨-, hpfx, -⟩ := refMatchAt_parts pat b (c :: cs) hcon
      exact hnd (hpfx.subset (by simp))
    rw [hasRef, hm]
    simp only [if_false, Bool.false_eq_true]
    exact ih (isWordChar c) (fun h => hnd (List.mem_cons_of_mem _ h))

theorem substAux_whole_ref (pat : List Char) (hpat : pat ≠ []) (w : List Char) (hw : w ≠ [])
    (hall : ∀ c ∈ w, isWordChar c = true) :
    ∀ (fuel : Nat), pat.length + 1 + w.length ≤ fuel →
      substAux pat false fuel false (pat ++ ['.'] ++ w) = w := by
  intro fuel hfuel
  obtain ⟨p, ps, rfl⟩ : ∃ p ps, pat = p :: ps := by
    cases pat with
    | nil => exact absurd rfl hpat
    | cons p ps => exact ⟨p, ps, rfl⟩
  obtain ⟨d, w', rfl⟩ : ∃ d w', w = d :: w' := by
    cases w with
    | nil => exact absurd rfl hw
    | cons d w' => exact ⟨d, w', rfl⟩
  cases fuel with
  | zero => simp at hfuel
  | succ f =>
    have hm : refMatchAt (p :: ps) false ((p :: ps) ++ ['.'] ++ (d :: w')) = true := by
      unfold refMatchAt
      have h1 : ((p :: ps) ++ ['.']).isPrefixOf ((p :: ps) ++ ['.'] ++ (d :: w')) = true := by
        rw [List.isPrefixOf_iff_prefix]
        exact List.prefix_append _ _
      have hlen : ((p :: ps) ++ ['.']).length = (p :: ps).length + 1 := by simp
      have h2 : ((p :: ps) ++ ['.'] ++ (d :: w')).drop ((p :: ps).length + 1) = d :: w' :=
        List.drop_left' hlen
      rw [h2, h1]
      simp [headIsWord, hall d (by simp)]
    have hcons : (p :: ps) ++ ['.'] ++ (d :: w') = p :: (ps ++ ['.'] ++ (d :: w')) := by simp
    rw [hcons, substAux, ← hcons, hm]
    simp only [if_true]
    have hlen : ((p :: ps) ++ ['.']).length = (p :: ps).length + 1 := by simp
    have hdrop : ((p :: ps) ++ ['.'] ++ (d :: w')).drop ((p :: ps).length + 1) = d :: w' :=
      List.drop_left' hlen
    rw [hdrop]
    have hdw : (d :: w').dropWhile isWordChar = [] :=
      List.dropWhile_eq_nil_iff.mpr (fun x hx => hall x hx)
    have htw : (d :: w').takeWhile isWordChar = d :: w' := by
      have := List.takeWhile_append_dropWhile (p := isWordChar) (l := d :: w')
      rw [hdw] at this
      simpa using this
    rw [htw, hdw, substAux_nil]
    simp

theorem jsReplaceRef_id_of_no_match (pat : String) (keep : Bool) (s : String)
    (h : hasRef pat.data false s.data = false) : jsReplaceRef pat keep s = s := by
  unfold jsReplaceRef
  rw [substAux_id_of_hasRef_false pat.data keep s.data.length false s.data le_rfl h]

theorem jsReplaceRef_keep_id (pat : String) (s : String) : jsReplaceRef pat true s = s := by
  unfold jsReplaceRef
  rw [substAux_keep_id]

theorem jsTrim_eq_empty_iff (s : String) :
    jsTrim s = "" ↔ ∀ c ∈ s.data, isJsWs c = true := by
  unfold jsTrim
  rw [String.ext_iff]
  show (((s.data.dropWhile isJsWs).reverse.dropWhile isJsWs).reverse = []) ↔ _
  rw [List.reverse_eq_nil_iff, List.dropWhile_eq_nil_iff]
  constructor
  · intro h c hc
    rcases List.mem_append.mp
        (by rw [List.takeWhile_append_dropWhile (p := isJsWs)]; exact hc :
          c ∈ s.data.takeWhile isJsWs ++ s.data.dropWhile isJsWs) with hm | hm
    · exact List.mem_takeWhile_imp hm
    · exact h c (List.mem_reverse.mpr hm)
  · intro h c hc
    exact h c ((List.dropWhile_sublist _).subset (List.mem_reverse.mp hc))

theorem isWordChar_not_ws (c : Char) (h : isWordChar c = true) : isJsWs c = false := by
  by_contra hh
  rw [Bool.not_eq_false] at hh
  unfold isJsWs at hh
  simp only [Bool.or_eq_true, beq_iff_eq] at hh
  rcases hh with (((((rfl | rfl) | rfl) | rfl) | rfl) | rfl) <;> exact absurd h (by decide)

theorem substAux_keeps_nonws (pat : List Char) (keep : Bool) :
    ∀ (fuel : Nat) (b : Bool) (l : List Char), (∃ c ∈ l, isJsWs c = false) →
      ∃ c ∈ substAux pat keep fuel b l, isJsWs c = false := by
  intro fuel
  induction fuel with
  | zero => intro b l h; exact h
  | succ f ih =>
    intro b l h
    cases l with
    | nil => simp at h
    | cons c cs =>
      by_cases hm : refMatchAt pat b (c :: cs) = true
      · rw [substAux, hm]
        simp only [if_true]
        have hhw : headIsWord ((c :: cs).drop (pat.length + 1)) = true :=
          (refMatchAt_parts pat b (c :: cs) hm).2.2
        obtain ⟨d, tl', hd⟩ : ∃ d tl', (c :: cs).drop (pat.length + 1) = d :: tl' := by
          cases hdrop : (c :: cs).drop (pat.length + 1) with
          | nil => rw [hdrop] at hhw; simp [headIsWord] at hhw
          | cons d tl' => exact ⟨d, tl', rfl⟩
        have hdw : isWordChar d = true := by
          rw [hd] at hhw; simpa [headIsWord] using hhw
        refine ⟨d, ?_, isWordChar_not_ws d hdw⟩
        apply List.mem_append_left
        have : d ∈ ((c :: cs).drop (pat.length + 1)).takeWhile isWordChar := by
          rw [hd, List.takeWhile_cons, hdw]
          simp
        cases keep <;> simp only [if_true, if_false, Bool.false_eq_true] <;>
          first
            | exact this
            | exact List.mem_append_right _ this
      · rw [Bool.not_eq_true] at hm
        rw [substAux, hm]
        simp only [if_false, Bool.false_eq_true]
        obtain ⟨x, hx, hxw⟩ := h
        rcases List.mem_cons.mp hx with rfl | hx'
        · exact ⟨x, List.mem_cons_self _ _, hxw⟩
        · obtain ⟨y, hy, hyw⟩ := ih (isWordChar c) cs ⟨x, hx', hxw⟩
          exact ⟨y, List.mem_cons_of_mem _ hy, hyw⟩

theorem jsReplaceRef_keeps_nonblank (pat : String) (keep : Bool) (s : String)
    (h : ¬ jsTrim s = "") : ¬ jsTrim (jsReplaceRef pat keep s) = "" := by
  intro hempty
  apply h
  rw [jsTrim_eq_empty_iff] at hempty ⊢
  by_contra hall
  push_neg at hall
  obtain ⟨x, hx, hxw⟩ := hall
  obtain ⟨y, hy, hyw⟩ :=
    substAux_keeps_nonws pat.data keep s.data.length false s.data
      ⟨x, hx, by simpa using hxw⟩
  have := hempty y hy
  rw [this] at hyw
  exact absurd hyw (by simp)

theorem no_dot_of_all_word (w : List Char) (hall : ∀ c ∈ w, isWordChar c = true) :
    '.' ∉ w := by
  intro hmem
  have := hall '.' hmem
  simp [isWordChar] at this

theorem hasRef_state_on_props_word (w : List Char) (hall : ∀ c ∈ w, isWordChar c = true) :
    hasRef "state".data false ("props.".data ++ w) = false := by
  have hw : hasRef "state".data false w = false :=
    hasRef_false_of_no_dot _ w false (no_dot_of_all_word w hall)
  have h1 : "props.".data ++ w = 'p' :: 'r' :: 'o' :: 'p' :: 's' :: '.' :: w := rfl
  have h2 : "state".data = ['s', 't', 'a', 't', 'e'] := rfl
  rw [h1, h2]
  rw [h2] at hw
  simp +decide [hasRef, refMatchAt, List.isPrefixOf, headIsWord, isWordChar, hw]

/-! ## Claims about the Binding Processor -/

/-- Claim C10: for every input code string that is empty or consists only
of whitespace, the Binding Processor of the more complete revision
(`src/unnamed/part_000`, guard `if (!code?.trim()) return '';`) returns the
empty string rather than the input text, in both contexts. -/
theorem claim_C10_blank_input_empty_output (code : String) (ctx : BindingCtx)
    (h : jsTrim code = "") : processBinding code ctx = "" := by
  unfold processBinding processBindingWith
  rw [if_pos h]

/-- Witness for C10 at the concrete whitespace-only input `"  "`. -/
theorem claim_C10_witness :
    jsTrim "  " = "" ∧ processBinding "  " BindingCtx.template = "" :=
  ⟨by decide, claim_C10_blank_input_empty_output "  " BindingCtx.template (by decide)⟩

/-- Claim C4: the Binding Processor never throws — embedded by its total
`String`-valued type with the throwing collaborator as an `Option`-valued
parameter — and on any internal processing failure (the collaborator
returning `none`, the `catch` branch of the source) it returns the original
input text unchanged. -/
theorem claim_C4_fail_soft (tf : String → Option String) (code : String) (ctx : BindingCtx)
    (hc : ¬ jsTrim code = "") (hfail : tf (substPasses ctx code) = none) :
    processBindingWith tf code ctx = code := by
  unfold processBindingWith
  rw [if_neg hc, hfail]

/-- Witness for C4: a collaborator that always fails returns the original
text at the concrete input `"state.x +"`. -/
theorem claim_C4_witness :
    ¬ jsTrim "state.x +" = "" ∧ (fun _ : String => (none : Option String)) (substPasses BindingCtx.template "state.x +") = none ∧
      processBindingWith (fun _ => none) "state.x +" BindingCtx.template = "state.x +" :=
  ⟨by decide, rfl,
    claim_C4_fail_soft (fun _ => none) "state.x +" BindingCtx.template (by decide) rfl⟩

/-- Claim C2 counterexample: the Binding Processor is not idempotent.  On
the input `state.state.foo` in markup/template context the first pass
yields `state.foo` (the global regex scan consumes `state.state` as one
match and resumes after it), and a second pass rewrites that to `foo`. -/
theorem claim_C2_counterexample :
    ¬ (processBinding (processBinding "state.state.foo" BindingCtx.template)
        BindingCtx.template
      = processBinding "state.state.foo" BindingCtx.template) := by
  decide

/-- Claim C2 (amended): re-running the Binding Processor on text already
rewritten for a given context yields the same text, provided the
once-rewritten text contains no residual container-reference pattern
(`state.<word>`, and in markup context also `props.<word>`).  Inputs with
chained references such as `state.state.foo` leave such a residual pattern
and are rewritten further by a second pass. -/
theorem claim_C2_amended_idempotent_without_residual (code : String) (ctx : BindingCtx)
    (h : hasResidualRef ctx (processBinding code ctx) = false) :
    processBinding (processBinding code ctx) ctx = processBinding code ctx := by
  by_cases hb : jsTrim code = ""
  · unfold processBinding processBindingWith
    rw [if_pos hb]
    rw [if_pos (by decide)]
  · have hout : processBinding code ctx = substPasses ctx code := by
      unfold processBinding processBindingWith exprTransform
      rw [if_neg hb]
    have houtnb : ¬ jsTrim (processBinding code ctx) = "" := by
      rw [hout]
      cases ctx <;>
        exact jsReplaceRef_keeps_nonblank _ _ _ (jsReplaceRef_keeps_nonblank _ _ _ hb)
    generalize processBinding code ctx = out at h houtnb ⊢
    unfold processBinding processBindingWith exprTransform
    rw [if_neg houtnb]
    show substPasses ctx out = out
    cases ctx with
    | template =>
      have hres := h
      unfold hasResidualRef at hres
      rw [Bool.or_eq_false_iff] at hres
      show jsReplaceRef "props" false (jsReplaceRef "state" false out) = out
      rw [jsReplaceRef_id_of_no_match _ _ _ hres.1,
        jsReplaceRef_id_of_no_match _ _ _ hres.2]
    | frontmatter =>
      have hres := h
      unfold hasResidualRef at hres
      show jsReplaceRef "props" true (jsReplaceRef "state" false out) = out
      rw [jsReplaceRef_id_of_no_match _ _ _ hres, jsReplaceRef_keep_id]

/-- Witness for the amended C2 at the concrete input
`state.count + props.x` in markup context (rewritten to `count + x`, which
has no residual pattern). -/
theorem claim_C2_amended_witness :
    hasResidualRef BindingCtx.template
        (processBinding "state.count + props.x" BindingCtx.template) = false ∧
      processBinding (processBinding "state.count + props.x" BindingCtx.template)
          BindingCtx.template
        = processBinding "state.count + props.x" BindingCtx.template :=
  ⟨by decide,
    claim_C2_amended_idempotent_without_residual "state.count + props.x" BindingCtx.template
      (by decide)⟩

theorem jsTrim_ne_empty_of_mem (s : String) (c : Char) (hc : c ∈ s.data)
    (hw : isJsWs c = false) : ¬ jsTrim s = "" := by
  intro h
  rw [jsTrim_eq_empty_iff] at h
  rw [h c hc] at hw
  exact absurd hw (by simp)

theorem jsReplaceRef_exact (pat : String) (hpat : pat.data ≠ []) (w : String)
    (hw : w.data ≠ []) (hall : ∀ c ∈ w.data, isWordChar c = true) :
    jsReplaceRef pat false (pat ++ "." ++ w) = w := by
  unfold jsReplaceRef
  have hdata : (pat ++ "." ++ w).data = pat.data ++ ['.'] ++ w.data := by
    rw [String.data_append, String.data_append]
  rw [hdata]
  rw [substAux_whole_ref pat.data hpat w.data hw hall _
    (by simp only [List.length_append, List.length_cons, List.length_nil]; omega)]

theorem substAux_fuel_irrel (pat : List Char) (keep : Bool) :
    ∀ (f1 : Nat) (b : Bool) (l : List Char), l.length ≤ f1 →
      ∀ (f2 : Nat), l.length ≤ f2 →
        substAux pat keep f1 b l = substAux pat keep f2 b l := by
  intro f1
  induction f1 with
  | zero =>
    intro b l h1 f2 h2
    have : l = [] := List.eq_nil_of_length_eq_zero (Nat.le_zero.mp h1)
    subst this
    rw [substAux_nil, substAux_nil]
  | succ f ih =>
    intro b l h1 f2 h2
    cases l with
    | nil => rw [substAux_nil, substAux_nil]
    | cons c cs =>
      cases f2 with
      | zero => simp at h2
      | succ g =>
        by_cases hm : refMatchAt pat b (c :: cs) = true
        · rw [substAux, substAux, hm]
          simp only [if_true]
          have hrest : (((c :: cs).drop (pat.length + 1)).dropWhile isWordChar).length
              ≤ cs.length := by
            have hd := (List.dropWhile_sublist (l := (c :: cs).drop (pat.length + 1))
              isWordChar).length_le
            have hdr : ((c :: cs).drop (pat.length + 1)).length ≤ cs.length := by
              rw [List.length_drop]
              simp only [List.length_cons]
              omega
            omega
          congr 1
          exact ih true _ (by simp only [List.length_cons] at h1; omega)
            g (by simp only [List.length_cons] at h2; omega)
        · rw [Bool.not_eq_true] at hm
          rw [substAux, substAux, hm]
          simp only [if_false, Bool.false_eq_true]
          congr 1
          exact ih (isWordChar c) cs (by simp only [List.length_cons] at h1; omega)
            g (by simp only [List.length_cons] at h2; omega)

theorem takeWhile_word_append (u v : List Char) (hall : ∀ c ∈ u, isWordChar c = true)
    (hv : headIsWord v = false) :
    (u ++ v).takeWhile isWordChar = u ∧ (u ++ v).dropWhile isWordChar = v := by
  induction u with
  | nil =>
    cases v with
    | nil => simp
    | cons d ds =>
      simp only [headIsWord] at hv
      simp [List.takeWhile_cons, List.dropWhile_cons, hv]
  | cons c cs ih =>
    have hc : isWordChar c = true := hall c (by simp)
    have ihr := ih (fun x hx => hall x (List.mem_cons_of_mem _ hx))
    simp only [List.cons_append, List.takeWhile_cons, List.dropWhile_cons, hc]
    simp [ihr.1, ihr.2]

theorem substAux_copy (pat : List Char) (keep : Bool) :
    ∀ (u : List Char) (b : Bool) (fuel : Nat) (tail : List Char),
      (u ++ tail).length ≤ fuel →
      ∀ (fuel2 : Nat), tail.length ≤ fuel2 →
      hasRefIn pat b u tail = false →
      substAux pat keep fuel b (u ++ tail)
        = u ++ substAux pat keep fuel2 (exitState b u) tail := by
  intro u
  induction u with
  | nil =>
    intro b fuel tail h1 fuel2 h2 _
    simp only [List.nil_append, exitState, List.foldl_nil]
    exact substAux_fuel_irrel pat keep fuel b tail (by simpa using h1) fuel2 h2
  | cons c cs ih =>
    intro b fuel tail h1 fuel2 h2 hno
    have hm : refMatchAt pat b (c :: (cs ++ tail)) = false := by
      by_cases h : refMatchAt pat b (c :: (cs ++ tail)) = true
      · rw [hasRefIn, h] at hno
        simp at hno
      · rwa [Bool.not_eq_true] at h
    have hno2 : hasRefIn pat (isWordChar c) cs tail = false := by
      rw [hasRefIn, hm] at hno
      simpa using hno
    cases fuel with
    | zero => simp at h1
    | succ f =>
      rw [List.cons_append, substAux, hm]
      simp only [if_false, Bool.false_eq_true]
      rw [ih (isWordChar c) f tail (by simp only [List.cons_append, List.length_cons] at h1; omega)
        fuel2 h2 hno2]
      simp only [List.cons_append]
      rfl

theorem substAux_segs (pat : List Char) (hpat : pat ≠ []) :
    ∀ (segs : List Seg) (b : Bool) (fuel : Nat),
      (flattenSegsData pat segs).length ≤ fuel →
      wfSegs pat b segs = true →
      substAux pat false fuel b (flattenSegsData pat segs)
        = flattenSegsData pat (segs.map rewriteSeg) := by
  intro segs
  induction segs with
  | nil =>
    intro b fuel _ _
    show substAux pat false fuel b [] = ([] : List Char)
    rw [substAux_nil]
  | cons seg rest ih =>
    intro b fuel hfuel hwf
    cases seg with
    | lit s =>
      rw [wfSegs] at hwf
      simp only [Bool.and_eq_true, Bool.not_eq_true'] at hwf
      obtain ⟨hno, hrest⟩ := hwf
      show substAux pat false fuel b (s.data ++ flattenSegsData pat rest) = _
      rw [substAux_copy pat false s.data b fuel (flattenSegsData pat rest)
        (by simpa [flattenSegsData] using hfuel) (flattenSegsData pat rest).length le_rfl hno]
      rw [ih (exitState b s.data) (flattenSegsData pat rest).length le_rfl hrest]
      rfl
    | ref w =>
      rw [wfSegs] at hwf
      simp only [Bool.and_eq_true, Bool.not_eq_true'] at hwf
      obtain ⟨⟨⟨⟨hb, hwne⟩, hwall⟩, hhead⟩, hrest⟩ := hwf
      have hwne' : w.data ≠ [] := by
        intro h
        rw [h] at hwne
        simp at hwne
      have hwall' : ∀ c ∈ w.data, isWordChar c = true := by
        rw [List.all_eq_true] at hwall
        exact hwall
      obtain ⟨p, ps, hpps⟩ : ∃ p ps, pat = p :: ps := by
        cases pat with
        | nil => exact absurd rfl hpat
        | cons p ps => exact ⟨p, ps, rfl⟩
      obtain ⟨d, ws, hdws⟩ : ∃ d ws, w.data = d :: ws := by
        cases hw : w.data with
        | nil => exact absurd hw hwne'
        | cons d ws => exact ⟨d, ws, rfl⟩
      have hflat : flattenSegsData pat (.ref w :: rest)
          = (pat ++ ['.']) ++ (w.data ++ flattenSegsData pat rest) := by
        show pat ++ '.' :: (w.data ++ flattenSegsData pat rest) = _
        rw [List.append_assoc]
        rfl
      have hsplit := takeWhile_word_append w.data (flattenSegsData pat rest) hwall' hhead
      have hm : refMatchAt pat b (flattenSegsData pat (.ref w :: rest)) = true := by
        rw [hflat]
        unfold refMatchAt
        subst hb
        have hpf : (pat ++ ['.']).isPrefixOf
            ((pat ++ ['.']) ++ (w.data ++ flattenSegsData pat rest)) = true := by
          rw [List.isPrefixOf_iff_prefix]
          exact List.prefix_append _ _
        have hlen : (pat ++ ['.']).length = pat.length + 1 := by simp
        have hdrop : ((pat ++ ['.']) ++ (w.data ++ flattenSegsData pat rest)).drop
            (pat.length + 1) = w.data ++ flattenSegsData pat rest := List.drop_left' hlen
        rw [hpf, hdrop]
        rw [hdws]
        simp [headIsWord, hwall' d (by rw [hdws]; simp)]
      cases fuel with
      | zero =>
        exfalso
        rw [hflat] at hfuel
        simp only [List.length_append, List.length_cons] at hfuel
        omega
      | succ f =>
        have hcons : flattenSegsData pat (.ref w :: rest)
            = p :: (ps ++ '.' :: (w.data ++ flattenSegsData pat rest)) := by
          show pat ++ '.' :: (w.data ++ flattenSegsData pat rest) = _
          rw [hpps]
          rfl
        rw [hcons, substAux, ← hcons, hm]
        simp only [if_true]
        have hlen : (pat ++ ['.']).length = pat.length + 1 := by simp
        have hdrop : (flattenSegsData pat (.ref w :: rest)).drop (pat.length + 1)
            = w.data ++ flattenSegsData pat rest := by
          rw [hflat]
          exact List.drop_left' hlen
        rw [hdrop, hsplit.1, hsplit.2]
        rw [ih true f (by
          rw [hflat] at hfuel
          simp only [List.length_append, List.length_cons] at hfuel ⊢
          have hp : 0 < pat.length := by
            rw [hpps]
            simp
          have hw : 0 < w.data.length := by
            rw [hdws]
            simp
          omega) hrest]
        simp only [if_false, Bool.false_eq_true]
        rfl

theorem flattenE_data_state (toks : List ExprTok) :
    (flattenE toks).data = flattenSegsData "state".data (toStateSegs toks) := by
  induction toks with
  | nil => rfl
  | cons t r ih =>
    cases t with
    | lit s =>
      show (s ++ flattenE r).data = s.data ++ flattenSegsData "state".data (toStateSegs r)
      rw [String.data_append, ih]
    | stateRef w =>
      show ("state." ++ w ++ flattenE r).data
        = "state".data ++ '.' :: (w.data ++ flattenSegsData "state".data (toStateSegs r))
      rw [String.data_append, String.data_append, ih]
      have h6 : ("state." : String).data = "state".data ++ ['.'] := rfl
      rw [h6]
      simp [List.append_assoc]
    | propsRef w =>
      show ("props." ++ w ++ flattenE r).data
        = ("props." ++ w).data ++ flattenSegsData "state".data (toStateSegs r)
      rw [String.data_append, ih]

theorem flattenE_data_props (toks : List ExprTok) :
    (flattenE toks).data = flattenSegsData "props".data (toPropsSegs toks) := by
  induction toks with
  | nil => rfl
  | cons t r ih =>
    cases t with
    | lit s =>
      show (s ++ flattenE r).data = s.data ++ flattenSegsData "props".data (toPropsSegs r)
      rw [String.data_append, ih]
    | stateRef w =>
      show ("state." ++ w ++ flattenE r).data
        = ("state." ++ w).data ++ flattenSegsData "props".data (toPropsSegs r)
      rw [String.data_append, ih]
    | propsRef w =>
      show ("props." ++ w ++ flattenE r).data
        = "props".data ++ '.' :: (w.data ++ flattenSegsData "props".data (toPropsSegs r))
      rw [String.data_append, String.data_append, ih]
      have h6 : ("props." : String).data = "props".data ++ ['.'] := rfl
      rw [h6]
      simp [List.append_assoc]

theorem flattenSegs_map_state (toks : List ExprTok) :
    flattenSegsData "state".data ((toStateSegs toks).map rewriteSeg)
      = (flattenE (stateRewrittenToks toks)).data := by
  induction toks with
  | nil => rfl
  | cons t r ih =>
    cases t with
    | lit s =>
      show s.data ++ _ = (s ++ flattenE (stateRewrittenToks r)).data
      rw [String.data_append, ih]
    | stateRef w =>
      show w.data ++ _ = (w ++ flattenE (stateRewrittenToks r)).data
      rw [String.data_append, ih]
    | propsRef w =>
      show ("props." ++ w).data ++ _ = ("props." ++ w ++ flattenE (stateRewrittenToks r)).data
      rw [String.data_append, String.data_append, ih, String.data_append]

theorem flattenSegs_map_props (toks : List ExprTok) :
    flattenSegsData "props".data ((toPropsSegs (stateRewrittenToks toks)).map rewriteSeg)
      = (flattenE (templateRewrittenToks toks)).data := by
  induction toks with
  | nil => rfl
  | cons t r ih =>
    cases t with
    | lit s =>
      show s.data ++ _ = (s ++ flattenE (templateRewrittenToks r)).data
      rw [String.data_append, ih]
    | stateRef w =>
      show w.data ++ _ = (w ++ flattenE (templateRewrittenToks r)).data
      rw [String.data_append, ih]
    | propsRef w =>
      show w.data ++ _ = (w ++ flattenE (templateRewrittenToks r)).data
      rw [String.data_append, ih]

/-- Claim C5: for every expression string, presented with its
decomposition into literal segments and bare container references
(`wfSegs` stating, via the scan's own match predicate, that the
decomposition marks exactly the references the scan finds — word boundary
before each reference, maximal captured word, no match inside or
straddling a literal segment, and, for the second template pass, none
arising after the state rewrite), the Binding Processor in
markup/template context rewrites every bare `state.<name>` and
`props.<name>` reference to the plain identifier `<name>`, and in
setup/frontmatter context rewrites every `state.<name>` to `<name>` while
every `props.<name>` stays qualified as `props.<name>`. -/
theorem claim_C5_rewrites_all_bare_refs (toks : List ExprTok)
    (hblank : ¬ jsTrim (flattenE toks) = "")
    (h1 : wfSegs "state".data false (toStateSegs toks) = true)
    (h2 : wfSegs "props".data false (toPropsSegs (stateRewrittenToks toks)) = true) :
    processBinding (flattenE toks) BindingCtx.template
        = flattenE (templateRewrittenToks toks) ∧
      processBinding (flattenE toks) BindingCtx.frontmatter
        = flattenE (stateRewrittenToks toks) := by
  have hstate : jsReplaceRef "state" false (flattenE toks)
      = flattenE (stateRewrittenToks toks) := by
    apply String.ext
    show substAux "state".data false (flattenE toks).data.length false (flattenE toks).data
      = (flattenE (stateRewrittenToks toks)).data
    rw [flattenE_data_state toks]
    rw [substAux_segs "state".data (by decide) (toStateSegs toks) false _ le_rfl h1]
    exact flattenSegs_map_state toks
  have hprops : jsReplaceRef "props" false (flattenE (stateRewrittenToks toks))
      = flattenE (templateRewrittenToks toks) := by
    apply String.ext
    show substAux "props".data false (flattenE (stateRewrittenToks toks)).data.length false
        (flattenE (stateRewrittenToks toks)).data
      = (flattenE (templateRewrittenToks toks)).data
    rw [flattenE_data_props (stateRewrittenToks toks)]
    rw [substAux_segs "props".data (by decide) (toPropsSegs (stateRewrittenToks toks))
      false _ le_rfl h2]
    exact flattenSegs_map_props toks
  constructor
  · unfold processBinding processBindingWith exprTransform
    rw [if_neg hblank]
    show jsReplaceRef "props" false (jsReplaceRef "state" false (flattenE toks)) = _
    rw [hstate, hprops]
  · unfold processBinding processBindingWith exprTransform
    rw [if_neg hblank]
    show jsReplaceRef "props" true (jsReplaceRef "state" false (flattenE toks)) = _
    rw [hstate, jsReplaceRef_keep_id]

/-- Witness for C5 at the two-reference expression
`state.count + props.x`: markup context yields `count + x`, setup context
yields `count + props.x`. -/
theorem claim_C5_witness :
    flattenE [ExprTok.stateRef "count", ExprTok.lit " + ", ExprTok.propsRef "x"]
        = "state.count + props.x" ∧
      wfSegs "state".data false
        (toStateSegs [ExprTok.stateRef "count", ExprTok.lit " + ", ExprTok.propsRef "x"])
        = true ∧
      processBinding "state.count + props.x" BindingCtx.template = "count + x" ∧
      processBinding "state.count + props.x" BindingCtx.frontmatter = "count + props.x" := by
  have h := claim_C5_rewrites_all_bare_refs
    [ExprTok.stateRef "count", ExprTok.lit " + ", ExprTok.propsRef "x"]
    (by decide) (by decide) (by decide)
  have e1 : flattenE [ExprTok.stateRef "count", ExprTok.lit " + ", ExprTok.propsRef "x"]
      = "state.count + props.x" := by decide
  have e2 : flattenE (templateRewrittenToks
      [ExprTok.stateRef "count", ExprTok.lit " + ", ExprTok.propsRef "x"]) = "count + x" := by
    decide
  have e3 : flattenE (stateRewrittenToks
      [ExprTok.stateRef "count", ExprTok.lit " + ", ExprTok.propsRef "x"])
      = "count + props.x" := by decide
  refine ⟨e1, by decide, ?_, ?_⟩
  · rw [← e1, ← e2]
    exact h.1
  · rw [← e1, ← e3]
    exact h.2

/-! ## Claims about the Hydration Analyzer -/

theorem strIncludes_parts (s a b c : String)
    (h : s.data = a.data ++ b.data ++ c.data) : strIncludes s b = true := by
  unfold strIncludes
  apply decide_eq_true
  rw [h]
  exact List.infix_append _ _ _

theorem strIncludes_onMountReason (k : Nat) :
    strIncludes (onMountReason k) "onMount" = true := by
  apply strIncludes_parts (onMountReason k) ("Component has " ++ toString k ++ " ")
    "onMount" " hook(s)"
  unfold onMountReason
  rw [String.data_append, String.data_append, String.data_append, String.data_append]
  have hmid : (" onMount hook(s)" : String).data
      = (" " : String).data ++ ("onMount" : String).data ++ (" hook(s)" : String).data := by
    decide
  rw [hmid]
  simp [List.append_assoc]

theorem directive_eq_load_of_any (rs : List String) (d : String)
    (h : rs.any (fun r => strIncludes r "onMount") = true) :
    (if rs.any (fun r => strIncludes r "onMount") then "client:load" else d)
      = "client:load" := by
  rw [h]
  simp

/-- Claim C1: for every Component containing at least one `onMount` hook,
the hydration analyzer's suggested activation strategy is the eager
`client:load` one, regardless of interactive-event bindings and refs: the
onMount reason recorded by the second check makes the final
`reasons.some(r => r.includes('onMount'))` override fire. -/
theorem claim_C1_onMount_forces_eager (json : MitosisComponent)
    (h : json.hooks.onMount ≠ []) :
    (analyzeHydrationNeeds json).suggestedDirective = "client:load" := by
  have hlen : 0 < json.hooks.onMount.length := List.length_pos.mpr h
  unfold analyzeHydrationNeeds
  dsimp only
  apply directive_eq_load_of_any
  rw [List.any_eq_true]
  refine ⟨onMountReason json.hooks.onMount.length, ?_, strIncludes_onMountReason _⟩
  simp [hlen, List.mem_append]

/-- Witness for C1: a component with one `onMount` hook, an interactive
event binding in the tree and no refs still gets the eager directive. -/
theorem claim_C1_witness :
    ({ hooks := { onMount := ["setup()"] },
       children := [.mk "div" [] [("onClick", { code := "state.go()" })] [] none []] }
        : MitosisComponent).hooks.onMount ≠ [] ∧
      (analyzeHydrationNeeds
        { hooks := { onMount := ["setup()"] },
          children := [.mk "div" [] [("onClick", { code := "state.go()" })] [] none []] }
        ).suggestedDirective = "client:load" :=
  ⟨by decide, claim_C1_onMount_forces_eager _ (by decide)⟩

theorem walkNodes_fst_eq (fuel : Nat) :
    ∀ ns : List MitosisNode, sizeOf ns ≤ fuel → (walkNodes ns).1 = anyNodes ns := by
  induction fuel with
  | zero =>
    intro ns h
    cases ns with
    | nil => rfl
    | cons n rest => simp at h
  | succ f ih =>
    intro ns h
    cases ns with
    | nil => rfl
    | cons n rest =>
      have hrest : sizeOf rest ≤ f := by
        simp at h
        omega
      have hn : (walkNode n).1 = anyNode n := by
        cases n with
        | mk name props binds children metaE scope =>
          have hch : sizeOf children ≤ f := by
            simp at h
            omega
          rw [walkNode, anyNode]
          cases hfi : firstInteractive binds with
          | some k =>
            have hany : binds.any (fun kb => INTERACTIVE_EVENTS.contains kb.1) = true := by
              unfold firstInteractive at hfi
              rw [Option.map_eq_some'] at hfi
              obtain ⟨kb, hkb, -⟩ := hfi
              rw [List.any_eq_true]
              refine ⟨kb, List.mem_of_find?_eq_some hkb, ?_⟩
              have hp := List.find?_some hkb
              exact hp
            rw [hany]
            simp
          | none =>
            have hany : binds.any (fun kb => INTERACTIVE_EVENTS.contains kb.1) = false := by
              unfold firstInteractive at hfi
              rw [Option.map_eq_none'] at hfi
              rw [List.find?_eq_none] at hfi
              rw [List.any_eq_false]
              exact hfi
            rw [hany]
            simp only [Bool.false_or]
            exact ih children hch
      rw [walkNodes, anyNodes]
      dsimp only
      rw [hn, ih rest hrest]

/-- Claim C3: a Component with no refs, no `onMount` hooks, no `onUpdate`
declaration and no interactive event binding anywhere in the node tree is
reported as not needing hydration. -/
theorem claim_C3_no_triggers_no_hydration (json : MitosisComponent)
    (h1 : getRefs json = []) (h2 : json.hooks.onMount = [])
    (h3 : json.hooks.onUpdate = none) (h4 : anyNodes json.children = false) :
    (analyzeHydrationNeeds json).needsHydration = false := by
  have hwalk : (walkNodes json.children).1 = false := by
    rw [walkNodes_fst_eq (sizeOf json.children) json.children le_rfl]
    exact h4
  unfold analyzeHydrationNeeds
  dsimp only
  rw [h1, h2, h3, hwalk]
  simp

/-- Witness for C3: a static tree (a heading with a literal class and a
text child) triggers none of the four checks. -/
theorem claim_C3_witness :
    getRefs { children := [.mk "h1" [("class", "title")] []
        [.mk "div" [("_text", "Hello")] [] [] none []] none []] } = [] ∧
      anyNodes ({ children := [.mk "h1" [("class", "title")] []
        [.mk "div" [("_text", "Hello")] [] [] none []] none []] }
          : MitosisComponent).children = false ∧
      (analyzeHydrationNeeds { children := [.mk "h1" [("class", "title")] []
        [.mk "div" [("_text", "Hello")] [] [] none []] none []] }).needsHydration = false :=
  ⟨by decide, by decide,
    claim_C3_no_triggers_no_hydration _ (by decide) (by decide) (by decide) (by decide)⟩

/-! ## Claims about the Class/Style Collector -/

theorem headIsQuote_quoted (t : String) : headIsQuote ("\"" ++ t ++ "\"") = true := by
  unfold headIsQuote
  rw [String.data_append, String.data_append]
  have h : ("\"" : String).data = ['"'] := rfl
  rw [h]
  simp

theorem lastIsQuote_quoted (t : String) : lastIsQuote ("\"" ++ t ++ "\"") = true := by
  unfold lastIsQuote
  rw [String.data_append]
  have h : ("\"" : String).data = ['"'] := rfl
  rw [h, List.getLast?_concat]
  rfl

theorem headIsQuote_paren (t : String) : headIsQuote ("(" ++ t ++ ")") = false := by
  unfold headIsQuote
  rw [String.data_append, String.data_append]
  have h : ("(" : String).data = ['('] := rfl
  rw [h]
  simp

/-- Claim C6: a Node whose only class source is a single literal `class`
property renders the direct `class="<value>"` form (with the trimmed
value) and no expression wrapper; a Node with two or more collected class
sources, or whose `class`/`className` source is a dynamic binding, renders
the filtered-join expression form over all collected entries. -/
theorem claim_C6_class_attribute_forms (n : MitosisNode) :
    ((jsTrim (propGet n "class") ≠ "" ∧ jsTrim (propGet n "className") = "" ∧
        jsTrim (bindCode n "class") = "" ∧ jsTrim (bindCode n "className") = "" ∧
        jsTrim (bindCode n "css") = "") →
      collectClassString n = "class=\"" ++ jsTrim (propGet n "class") ++ "\"") ∧
    (2 ≤ (collectClassEntries n).length →
      collectClassString n = classExprOf (collectClassEntries n)) ∧
    ((jsTrim (bindCode n "class") ≠ "" ∨ jsTrim (bindCode n "className") ≠ "") →
      collectClassString n = classExprOf (collectClassEntries n)) := by
  have hB : 2 ≤ (collectClassEntries n).length →
      collectClassString n = classExprOf (collectClassEntries n) := by
    intro h2
    have h0 : ¬ (collectClassEntries n = []) := by
      intro h0
      rw [h0] at h2
      simp at h2
    have h1 : ¬ ((collectClassEntries n).length = 1 ∧
        headIsQuote ((collectClassEntries n).headD "") = true ∧
        lastIsQuote ((collectClassEntries n).headD "") = true) := by
      rintro ⟨hl, -, -⟩
      omega
    unfold collectClassString
    rw [if_neg h0, if_neg h1]
  refine ⟨?_, hB, ?_⟩
  · rintro ⟨h1, h2, h3, h4, h5⟩
    have hE : collectClassEntries n
        = ["\"" ++ jsTrim (propGet n "class") ++ "\""] := by
      unfold collectClassEntries
      rw [if_pos h1, if_neg (by simp [h2]), if_neg (by simp [h3]),
        if_neg (by simp [h4]), if_neg (by simp [h5])]
      simp
    unfold collectClassString
    rw [hE]
    rw [if_neg (by simp), if_pos ⟨by simp, by simpa using headIsQuote_quoted _,
      by simpa using lastIsQuote_quoted _⟩]
    show "class=" ++ ("\"" ++ jsTrim (propGet n "class") ++ "\"") = _
    rw [← String.append_assoc, ← String.append_assoc]
    have hq : ("class=" : String) ++ "\"" = "class=\"" := by decide
    rw [hq]
  · intro h3
    obtain ⟨e, he, heq⟩ : ∃ e, e ∈ collectClassEntries n ∧ headIsQuote e = false := by
      rcases h3 with h | h
      · refine ⟨"(" ++ processBinding (bindCode n "class") BindingCtx.template ++ ")",
          ?_, headIsQuote_paren _⟩
        unfold collectClassEntries
        rw [if_pos h]
        simp [List.mem_append]
      · refine ⟨"(" ++ processBinding (bindCode n "className") BindingCtx.template ++ ")",
          ?_, headIsQuote_paren _⟩
        unfold collectClassEntries
        rw [if_pos h]
        simp [List.mem_append]
    rcases Nat.lt_or_ge (collectClassEntries n).length 2 with hlt | hge
    · have hpos : 0 < (collectClassEntries n).length :=
        List.length_pos.mpr (List.ne_nil_of_mem he)
      have hlen1 : (collectClassEntries n).length = 1 := by omega
      obtain ⟨x, hx⟩ := List.length_eq_one.mp hlen1
      rw [hx] at he
      have hex : e = x := by simpa using he
      unfold collectClassString
      rw [hx]
      rw [if_neg (by simp), if_neg ?_]
      rintro ⟨-, hq, -⟩
      rw [List.headD_cons] at hq
      rw [← hex, heq] at hq
      exact absurd hq (by simp)
    · exact hB hge

/-- Witness for C6: a node with one literal class gets the direct form; a
node with a literal class and a dynamic class binding gets the
filtered-join expression form. -/
theorem claim_C6_witness :
    (jsTrim (propGet (.mk "div" [("class", " btn ")] [] [] none []) "class") ≠ "" ∧
      collectClassString (.mk "div" [("class", " btn ")] [] [] none []) = "class=\"btn\"") ∧
      (2 ≤ (collectClassEntries
        (.mk "div" [("class", "btn")] [("class", { code := "state.cls" })] [] none [])).length ∧
      collectClassString
        (.mk "div" [("class", "btn")] [("class", { code := "state.cls" })] [] none [])
        = classExprOf (collectClassEntries
            (.mk "div" [("class", "btn")] [("class", { code := "state.cls" })] [] none []))) :=
  ⟨⟨by decide,
    by
      have h := (claim_C6_class_attribute_forms
        (.mk "div" [("class", " btn ")] [] [] none [])).1
        ⟨by decide, by decide, by decide, by decide, by decide⟩
      rw [h]
      decide⟩,
   ⟨by decide,
    (claim_C6_class_attribute_forms
      (.mk "div" [("class", "btn")] [("class", { code := "state.cls" })] [] none [])).2.1
      (by decide)⟩⟩

/-! ## Claims about the Node Renderer -/

theorem interactive_key_facts :
    ∀ k ∈ INTERACTIVE_EVENTS, checkIsEvent k = true ∧
      ¬(k = "class" ∨ k = "className" ∨ k = "css" ∨ k = "_text") ∧ k ≠ "ref" := by
  decide

theorem selfClosing_not_special :
    ∀ t ∈ selfClosingTags, t ≠ "Fragment" ∧ t ≠ "For" ∧ t ≠ "Show" := by
  decide

theorem strIncludes_append_self (a b : String) : strIncludes (a ++ b) b = true := by
  unfold strIncludes
  apply decide_eq_true
  rw [String.data_append]
  exact ⟨a.data, [], by simp⟩

theorem strIncludes_append_right (a t b : String) (h : strIncludes a b = true) :
    strIncludes (a ++ t) b = true := by
  unfold strIncludes at h ⊢
  apply decide_eq_true
  have hab := of_decide_eq_true h
  rw [String.data_append]
  exact List.IsInfix.trans hab ⟨[], t.data, by simp⟩

theorem bindingsFoldAux_flag_mono (nodeName : String) :
    ∀ (l : List (String × Binding)) (acc : String),
      (bindingsFoldAux nodeName acc true l).2 = true := by
  intro l
  induction l with
  | nil => intro acc; rfl
  | cons kb rest ih =>
    intro acc
    obtain ⟨k, b⟩ := kb
    unfold bindingsFoldAux
    dsimp only
    repeat' split
    all_goals
      first
      | (simp only [Bool.true_or]; exact ih _)
      | exact ih _

theorem bindingsFoldAux_flag_of_interactive (nodeName : String) :
    ∀ (l : List (String × Binding)) (acc : String) (flag : Bool) (k : String) (b : Binding),
      (k, b) ∈ l → ¬ jsTrim b.code = "" → b.type ≠ some "spread" →
      INTERACTIVE_EVENTS.contains k = true →
      (bindingsFoldAux nodeName acc flag l).2 = true := by
  intro l
  induction l with
  | nil =>
    intro acc flag k b hmem
    simp at hmem
  | cons kb rest ih =>
    intro acc flag k b hmem hcode hspread hIE
    have hk : k ∈ INTERACTIVE_EVENTS := List.elem_iff.mp hIE
    obtain ⟨hev, hcls, href⟩ := interactive_key_facts k hk
    rcases List.mem_cons.mp hmem with heq | hmem'
    · rw [← heq]
      unfold bindingsFoldAux
      dsimp only
      rw [if_neg hcode, if_neg hcls, if_neg hspread, if_neg href, if_pos hev]
      rw [hIE]
      simp only [Bool.or_true]
      exact bindingsFoldAux_flag_mono nodeName rest _
    · unfold bindingsFoldAux
      dsimp only
      repeat' split
      all_goals exact ih _ _ k b hmem' hcode hspread hIE

/-- Claim C7: a plain element Node carrying an event binding whose name is
in the interactive allow-list (with non-blank code and not a spread
binding) renders with the configured (or default) activation-strategy
directive marker, for every options value — in particular independently of
the `typescript` flag, which the renderer never reads — provided the
caller has not disabled directives (`clientDirective ≠ 'none'`, per the
source's guard). -/
theorem claim_C7_interactive_event_emits_directive (opts : AstroOpts)
    (name : String) (props : List (String × String)) (binds : List (String × Binding))
    (children : List MitosisNode) (metaE : Option MitosisNode) (scope : List String)
    (k : String) (b : Binding)
    (hmem : (k, b) ∈ binds) (hcode : ¬ jsTrim b.code = "") (hspread : b.type ≠ some "spread")
    (hIE : INTERACTIVE_EVENTS.contains k = true)
    (htp : (props.lookup "_text").getD "" = "")
    (htb : ((binds.lookup "_text").map Binding.code).getD "" = "")
    (hname : name ≠ "Fragment" ∧ name ≠ "For" ∧ name ≠ "Show")
    (hdir : opts.clientDirective ≠ some "none") :
    strIncludes (blockToAstro opts (.mk name props binds children metaE scope))
      (directiveOf opts) = true := by
  have hflag : (bindingsFold name binds).2 = true :=
    bindingsFoldAux_flag_of_interactive name binds "" false k b hmem hcode hspread hIE
  rw [blockToAstro.eq_def]
  dsimp only
  rw [htp, htb]
  rw [if_neg (by simp), if_neg (by simp), if_neg hname.1, if_neg hname.2.1, if_neg hname.2.2]
  rw [if_pos (show (bindingsFold name binds).2 = true ∧ opts.clientDirective ≠ some "none"
    from ⟨hflag, hdir⟩)]
  repeat' split
  all_goals
    repeat'
      first
      | (with_reducible exact strIncludes_append_self _ _)
      | (with_reducible apply strIncludes_append_right)

/-- Witness for C7: a button with an `onClick` binding, rendered with
typed output disabled and the default directive. -/
theorem claim_C7_witness :
    (("onClick", ({ code := "state.go()" } : Binding))
        ∈ [("onClick", ({ code := "state.go()" } : Binding))]) ∧
      INTERACTIVE_EVENTS.contains "onClick" = true ∧
      strIncludes
        (blockToAstro { typescript := false, clientDirective := some "client:visible" }
          (.mk "button" [] [("onClick", { code := "state.go()" })] [] none []))
        (directiveOf { typescript := false, clientDirective := some "client:visible" })
        = true :=
  ⟨by decide, by decide,
    claim_C7_interactive_event_emits_directive
      { typescript := false, clientDirective := some "client:visible" }
      "button" [] [("onClick", { code := "state.go()" })] [] none []
      "onClick" { code := "state.go()" }
      (by decide) (by decide) (by decide) (by decide) (by decide) (by decide)
      ⟨by decide, by decide, by decide⟩ (by decide)⟩

theorem collectClassString_children_any (name : String) (props : List (String × String))
    (binds : List (String × Binding)) (children children2 : List MitosisNode)
    (metaE metaE2 : Option MitosisNode) (scope scope2 : List String) :
    collectClassString (.mk name props binds children metaE scope)
      = collectClassString (.mk name props binds children2 metaE2 scope2) := rfl

/-- Claim C8: a Node whose tag name is in the self-closing set renders with
the self-closing marker ` />` and without rendering any children or
emitting a closing tag: its rendering equals that of the same node with an
empty children sequence (and no else-branch metadata), even when the
source node carries children. -/
theorem claim_C8_self_closing_ignores_children (opts : AstroOpts)
    (name : String) (props : List (String × String)) (binds : List (String × Binding))
    (children : List MitosisNode) (metaE : Option MitosisNode) (scope : List String)
    (hsc : selfClosingTags.contains name = true)
    (htp : (props.lookup "_text").getD "" = "")
    (htb : ((binds.lookup "_text").map Binding.code).getD "" = "") :
    (∃ s, blockToAstro opts (.mk name props binds children metaE scope) = s ++ " />") ∧
      blockToAstro opts (.mk name props binds children metaE scope)
        = blockToAstro opts (.mk name props binds [] none []) := by
  have hmem : name ∈ selfClosingTags := List.elem_iff.mp hsc
  obtain ⟨h1, h2, h3⟩ := selfClosing_not_special name hmem
  constructor
  · rw [blockToAstro.eq_def]
    dsimp only
    rw [htp, htb]
    rw [if_neg (by simp), if_neg (by simp), if_neg h1, if_neg h2, if_neg h3, if_pos hsc]
    exact ⟨_, rfl⟩
  · simp only [blockToAstro.eq_def]
    simp only [htp, htb]
    simp [h1, h2, h3, hmem]
    rw [collectClassString_children_any name props binds children [] metaE none scope []]

/-- Witness for C8: a `br` node carrying a child still renders `<br />`
with the child dropped. -/
theorem claim_C8_witness :
    selfClosingTags.contains "br" = true ∧
      (∃ s, blockToAstro {}
        (.mk "br" [] [] [.mk "div" [("_text", "Hi")] [] [] none []] none []) = s ++ " />") ∧
      blockToAstro {} (.mk "br" [] [] [.mk "div" [("_text", "Hi")] [] [] none []] none [])
        = blockToAstro {} (.mk "br" [] [] [] none []) :=
  ⟨by decide,
    (claim_C8_self_closing_ignores_children {} "br" [] []
      [.mk "div" [("_text", "Hi")] [] [] none []] none []
      (by decide) (by decide) (by decide)).1,
    (claim_C8_self_closing_ignores_children {} "br" [] []
      [.mk "div" [("_text", "Hi")] [] [] none []] none []
      (by decide) (by decide) (by decide)).2⟩

/-! ## Claim about the Component Assembler's mutation discipline -/

theorem mutateAt_get_ne (hh : ComponentStore) (i j : Nat)
    (f : MitosisComponent → MitosisComponent) (hij : j ≠ i) :
    storeGet (mutateAt hh j f) i = storeGet hh i := by
  unfold mutateAt
  cases hget : storeGet hh j with
  | none => rfl
  | some c =>
    show storeGet ⟨hh.cells.set j (f c)⟩ i = storeGet hh i
    unfold storeGet
    exact List.getElem?_set_ne hij

theorem foldl_mutateAt_get_ne (j i : Nat) (hij : j ≠ i)
    (stages : List (MitosisComponent → MitosisComponent)) :
    ∀ hh : ComponentStore,
      storeGet (stages.foldl (fun acc f => mutateAt acc j f) hh) i = storeGet hh i := by
  induction stages with
  | nil => intro hh; rfl
  | cons f fs ih =>
    intro hh
    rw [List.foldl_cons, ih, mutateAt_get_ne hh i j f hij]

/-- Claim C9: one complete compilation leaves the caller's Component cell
unchanged.  In the reference-semantics model, `componentToAstro` clones the
caller's component into a fresh cell (`fastClone`) and applies every
in-place mutating stage of the pipeline — quantified here as arbitrary
component transformers, covering the plugin hook stages, CSS collection
and metadata stripping — at the clone's cell only, so the caller's cell
still holds its original value afterwards. -/
theorem claim_C9_caller_cell_unchanged (h : ComponentStore) (caller : Nat)
    (stages : List (MitosisComponent → MitosisComponent))
    (hc : caller < h.cells.length) :
    storeGet (componentToAstroPipeline h caller stages).1 caller = storeGet h caller := by
  obtain ⟨c, hc2⟩ : ∃ c, storeGet h caller = some c := by
    unfold storeGet
    exact ⟨h.cells[caller], List.getElem?_eq_getElem hc⟩
  unfold componentToAstroPipeline fastCloneAlloc
  rw [hc2]
  dsimp only
  rw [foldl_mutateAt_get_ne h.cells.length caller (by omega) stages]
  show storeGet ⟨h.cells ++ [c]⟩ caller = some c
  unfold storeGet at hc2 ⊢
  rw [List.getElem?_append_left hc]
  exact hc2

/-- Witness for C9: a one-cell store whose component is renamed by every
pipeline stage still holds the original at the caller's cell. -/
theorem claim_C9_witness :
    0 < (⟨[{ name := "Counter" }]⟩ : ComponentStore).cells.length ∧
      storeGet (componentToAstroPipeline ⟨[{ name := "Counter" }]⟩ 0
          [fun c => { c with name := "mutated" }]).1 0
        = storeGet (⟨[{ name := "Counter" }]⟩ : ComponentStore) 0 :=
  ⟨by decide,
    claim_C9_caller_cell_unchanged ⟨[{ name := "Counter" }]⟩ 0
      [fun c => { c with name := "mutated" }] (by decide)⟩
